import Mathlib

/-!
Verification of `fairseq/criterions/kl_head_diversification.py`
(`KLHeadDiversificationCriterion`), a cross-entropy criterion with a
KL-based attention-head diversification regularizer.

Modelling choices:
* A PyTorch tensor is embedded as a `Tensor`: a shape (list of dimension
  sizes) together with row-major flattened data.  Tensor entries are exact
  rationals (`ℚ`); the float literals `1e-6`/`1e-7` of the source are read
  as the exact rationals they denote.  The KL scalar itself involves
  logarithms and therefore lives in `ℝ` (exact arithmetic).
* `assert` statements are embedded by returning `Except String`: an
  assertion failure is `.error msg`.
* The in-place update `q[q <= 1e-7] = 1e-7` is embedded by explicit state
  passing: `KL_div` returns the scalar together with the post-call state of
  its second argument.
* `model.get_normalized_probs` and `model.get_targets` are model-owned
  collaborators; the (flattened) log-probability matrix and the target
  index tensor are taken as direct inputs, as the spec treats them.
  `forward`/`compute_loss` are embedded on the `reduce=True` path used by
  training (`F.nll_loss` with reduction `'sum'`).
-/

namespace KLHead

/-- A tensor: a shape `[d₀, d₁, …]` and row-major flattened data. -/
structure Tensor where
  shape : List ℕ
  data : List ℚ
deriving DecidableEq, Repr

/-- Size of the last axis (the probability-distribution axis). -/
def Tensor.lastDim (t : Tensor) : ℕ := t.shape.getLastD 0

/-- Number of last-axis slices: the element count of the tensor obtained by
reducing over the last axis, i.e. the product of all leading dimensions. -/
def Tensor.numRows (t : Tensor) : ℕ := t.shape.dropLast.prod

/-- Cut a flat list into `r` consecutive chunks of length `k`
(the last-axis slices of a row-major tensor). -/
def chunkList {α : Type} : ℕ → ℕ → List α → List (List α)
  | 0, _, _ => []
  | r + 1, k, l => l.take k :: chunkList r k (l.drop k)

/-- The last-axis slices of a tensor, in row-major order. -/
def Tensor.rows (t : Tensor) : List (List ℚ) := chunkList t.numRows t.lastDim t.data

/-- Embedding of `torch.sum(t, -1)` as the flat list of per-slice sums. -/
def rowSums (t : Tensor) : List ℚ := t.rows.map List.sum

/-- Embedding of the assertion condition
`torch.all(torch.lt(torch.abs(torch.add(sum, -ones)), 1e-6))`:
every last-axis sum is within `1e-6` of `1`. -/
def probOK (t : Tensor) : Prop := ∀ s ∈ rowSums t, |s - 1| < 1e-6

instance (t : Tensor) : Decidable (probOK t) := List.decidableBAll _ _

/-- Pointwise effect of the in-place update `q[q <= 1e-7] = 1e-7`. -/
def clampVal (x : ℚ) : ℚ := if x ≤ 1e-7 then 1e-7 else x

/-- The whole tensor after the in-place update `q[q <= 1e-7] = 1e-7`. -/
def clampT (t : Tensor) : Tensor := ⟨t.shape, t.data.map clampVal⟩

/-- Pointwise value of `F.kl_div(torch.log(q), p, reduction="none")`:
`p * (log p - log q)`, with the `xlogy` convention that a zero target
contributes `0` (matched in `ℝ` by `Real.log 0 = 0`). -/
noncomputable def klContrib (p q : ℚ) : ℝ := (p : ℝ) * (Real.log p - Real.log q)

/-- Mean of a list of reals (`torch.mean` of a flattened tensor). -/
noncomputable def meanR (l : List ℝ) : ℝ := l.sum / l.length

/-- Scalar computed by the final line of `KL_div`:
`torch.mean(torch.sum(F.kl_div(torch.log(q), p, reduction="none"), -1))`,
with `q` already clamped in place. -/
noncomputable def KL_div_core (p q : Tensor) : ℝ :=
  meanR ((chunkList p.numRows p.lastDim (List.zipWith klContrib p.data (clampT q).data)).map List.sum)

/-- Embedding of `KLHeadDiversificationCriterion.KL_div`.  Returns the
scalar `torch.mean(torch.sum(F.kl_div(torch.log(q), p, reduction="none"), -1))`
together with the post-call state of the (mutated) argument `q`;
assertion failures are `.error`. -/
noncomputable def KL_div (p q : Tensor) : Except String (ℝ × Tensor) :=
  if p.shape = q.shape then
    if probOK p then
      if probOK q then
        .ok (KL_div_core p q, clampT q)
      else .error "q has at least 1 non prob distribution"
    else .error "p has at least 1 non prob distribution"
  else .error "p, q must be the same size"

/-- Embedding of `torch.tensor([])`: the empty 1-dimensional tensor. -/
def emptyT : Tensor := ⟨[0], []⟩

/-- Embedding of `weight[i, :, :, :]`: the `i`-th slice along axis 0. -/
def headSlice (w : Tensor) (i : ℕ) : Tensor :=
  ⟨w.shape.tail, (w.data.drop (i * w.shape.tail.prod)).take w.shape.tail.prod⟩

/-- Embedding of `t.unsqueeze(0)`. -/
def unsqueeze0 (t : Tensor) : Tensor := ⟨1 :: t.shape, t.data⟩

/-- Embedding of `torch.cat((a, b), 0)`, including the legacy PyTorch rule
that a 1-dimensional empty tensor (shape `[0]`, as produced by
`torch.tensor([])`) is skipped. -/
def cat0 (a b : Tensor) : Tensor :=
  if a.shape = [0] then b
  else if b.shape = [0] then a
  else ⟨(a.shape.headD 0 + b.shape.headD 0) :: a.shape.tail, a.data ++ b.data⟩

/-- The index pairs visited by the nested loop
`for i in range(0, num_heads): for j in range(i + 1, num_heads)`,
in visit order. -/
def headPairs (H : ℕ) : List (ℕ × ℕ) :=
  (List.range H).flatMap fun i => (List.range' (i + 1) (H - (i + 1))).map fun j => (i, j)

/-- Lexicographic strict order on head-index pairs: ascending first index,
ties broken by ascending second index. -/
def pairLt (a b : ℕ × ℕ) : Prop := a.1 < b.1 ∨ (a.1 = b.1 ∧ a.2 < b.2)

/-- One iteration of the pair loop body: concatenate the head-`i` slice onto
`p_mat` and the head-`j` slice onto `q_mat`. -/
def pqStep (w : Tensor) (pq : Tensor × Tensor) (ij : ℕ × ℕ) : Tensor × Tensor :=
  (cat0 pq.1 (unsqueeze0 (headSlice w ij.1)), cat0 pq.2 (unsqueeze0 (headSlice w ij.2)))

/-- The `(p_mat, q_mat)` pair built by the nested loop of
`calculate_kl_div_reward` for one layer's weight tensor `w`
(`num_heads = w.size(0)`), starting from two `torch.tensor([])`. -/
def buildPQ (w : Tensor) : Tensor × Tensor :=
  (headPairs (w.shape.headD 0)).foldl (pqStep w) (emptyT, emptyT)

/-- The per-layer scalar `score = self.KL_div(p_mat, q_mat)` for one layer. -/
noncomputable def layerScore (w : Tensor) : Except String ℝ :=
  match KL_div (buildPQ w).1 (buildPQ w).2 with
  | .error e => .error e
  | .ok sq => .ok sq.1

/-- The per-layer scalars collected (in layer order) into `kl_scores`;
the first assertion failure aborts the loop. -/
noncomputable def collectScores : List Tensor → Except String (List ℝ)
  | [] => .ok []
  | w :: ws =>
    match layerScore w with
    | .error e => .error e
    | .ok s =>
      match collectScores ws with
      | .error e => .error e
      | .ok ss => .ok (s :: ss)

/-- Embedding of `calculate_kl_div_reward`: per-layer pairwise-KL scalars,
then `torch.mean(kl_scores)`. -/
noncomputable def calculate_kl_div_reward (weights : List Tensor) : Except String ℝ :=
  match collectScores weights with
  | .error e => .error e
  | .ok ss => .ok (meanR ss)

/-- State-passing form of `calculate_kl_div_reward`, additionally returning
the post-call state of the per-layer weight tensors the caller handed in.
The loop reads `weight[i, :, :, :]` slices, copies them (via `torch.cat`)
into the fresh local `p_mat`/`q_mat`, and only the local `q_mat` is mutated
inside `KL_div`; no write targets the weight tensors themselves, so the
post-call list is the input list. -/
noncomputable def calculate_kl_div_reward_st (weights : List Tensor) :
    Except String (ℝ × List Tensor) :=
  match collectScores weights with
  | .error e => .error e
  | .ok ss => .ok (meanR ss, weights)

/-- Embedding of `F.nll_loss(lprobs, target, ignore_index, reduction='sum')`:
the sum over positions of `-lprobs[n][target[n]]`, skipping positions whose
target equals `ignore_index`. -/
def nll_loss (lprobs : List (List ℝ)) (target : List ℕ) (ignore_index : ℕ) : ℝ :=
  (List.zipWith (fun row t => if t = ignore_index then 0 else -(row.getD t 0)) lprobs target).sum

/-- Configuration of `KLHeadDiversificationCriterion`: the
`--sentence-avg` flag and `self.epsilon = kl_reg` (the coefficient λ),
plus the task's padding index. -/
structure Criterion where
  sentence_avg : Bool
  epsilon : ℝ
  padding_idx : ℕ

/-- Embedding of `compute_loss` (on the `reduce=True` path): NLL loss from
the flattened log-probabilities and targets, then
`loss -= kl_reg * self.epsilon`; returns `(loss, kl_reg)`. -/
noncomputable def compute_loss (self : Criterion) (lprobs : List (List ℝ))
    (target : List ℕ) (weights : List Tensor) : Except String (ℝ × ℝ) :=
  match calculate_kl_div_reward weights with
  | .error e => .error e
  | .ok kl_reg => .ok (nll_loss lprobs target self.padding_idx - kl_reg * self.epsilon, kl_reg)

/-- The logging record built by `forward`: exactly the keys
`loss`, `ntokens`, `nsentences`, `sample_size`, `kl_reg`. -/
structure LoggingOutput where
  loss : ℝ
  ntokens : ℕ
  nsentences : ℕ
  sample_size : ℕ
  kl_reg : ℝ

/-- Embedding of `forward`.  The model's output for the sample is abstracted
as the flattened log-probability matrix `lprobs` and the attention-weight
collection `weights`; the sample carries the 2-dimensional target tensor
(`target.size(0)` sentences) and `ntokens`.  Returns
`(loss, sample_size, logging_output)`. -/
noncomputable def forward (self : Criterion) (lprobs : List (List ℝ))
    (target : List (List ℕ)) (ntokens : ℕ) (weights : List Tensor) :
    Except String (ℝ × ℕ × LoggingOutput) :=
  match compute_loss self lprobs target.flatten weights with
  | .error e => .error e
  | .ok lk =>
    let sample_size := if self.sentence_avg then target.length else ntokens
    .ok (lk.1, sample_size,
      { loss := lk.1
        ntokens := ntokens
        nsentences := target.length
        sample_size := sample_size
        kl_reg := lk.2 })

/-- Modelled from the spec, §4.3 (divergence measure), used only to compare
against the source's `KL_div`: clamp every element of Q below `1e-7` up to
exactly `1e-7` (P left unmodified), form the pointwise contribution
`P · (log P − log Q)` against the clamped Q, sum the contributions along the
last axis, and return the arithmetic mean of all remaining elements. -/
noncomputable def spec_divergence_measure (p q : Tensor) : ℝ :=
  meanR ((chunkList p.numRows p.lastDim
    (List.zipWith (fun (a b : ℚ) => (a : ℝ) * (Real.log a - Real.log b)) p.data
      (q.data.map fun x : ℚ => if x < 1e-7 then 1e-7 else x))).map List.sum)

/-- A concrete single-layer weight tensor (shape `[H=2, B=1, Q=1, K=2]`,
uniform distributions), used to instantiate theorems with hypotheses. -/
def W0 : Tensor := ⟨[2, 1, 1, 2], [1/2, 1/2, 1/2, 1/2]⟩

/-! ### Basic lemmas about the clamp and the `KL_div` guard structure -/

lemma clampVal_of_le {x : ℚ} (h : x ≤ 1e-7) : clampVal x = 1e-7 := by
  unfold clampVal
  exact if_pos h

lemma clampVal_of_ge {x : ℚ} (h : 1e-7 ≤ x) : clampVal x = x := by
  unfold clampVal
  by_cases hx : x ≤ 1e-7
  · rw [if_pos hx]
    exact le_antisymm h hx
  · exact if_neg hx

lemma specClamp_eq_clampVal : (fun x : ℚ => if x < 1e-7 then 1e-7 else x) = clampVal := by
  funext x
  by_cases hx : x < 1e-7
  · rw [if_pos hx, clampVal_of_le hx.le]
  · rw [if_neg hx, clampVal_of_ge (not_lt.mp hx)]

lemma getD_map_clampVal (l : List ℚ) (i : ℕ) (hi : i < l.length) :
    (l.map clampVal).getD i 0 = clampVal (l.getD i 0) := by
  rw [List.getD_eq_getElem _ _ (by simpa using hi), List.getD_eq_getElem _ _ hi,
    List.getElem_map]

lemma KL_div_ok {p q : Tensor} (hs : p.shape = q.shape) (hp : probOK p) (hq : probOK q) :
    KL_div p q = .ok (KL_div_core p q, clampT q) := by
  unfold KL_div
  rw [if_pos hs, if_pos hp, if_pos hq]

lemma not_probOK_iff (t : Tensor) : ¬ probOK t ↔ ∃ s ∈ rowSums t, 1e-6 ≤ |s - 1| := by
  unfold probOK
  push_neg
  rfl

/-- C2: for every pair of tensors `P`, `Q` of identical shape whose last-axis
slices are valid distributions, `KL_div` computes the pointwise contribution
`P · (log P − log(clamped Q))`, sums these contributions along the last axis,
and returns the arithmetic mean of all remaining elements as a single scalar
(stated as agreement of the returned scalar with the divergence measure
modelled from the spec's words). -/
theorem C2_KL_div_matches_spec (p q : Tensor) (hs : p.shape = q.shape)
    (hp : probOK p) (hq : probOK q) :
    (KL_div p q).map Prod.fst = .ok (spec_divergence_measure p q) := by
  rw [KL_div_ok hs hp hq]
  show Except.ok (KL_div_core p q) = _
  unfold KL_div_core spec_divergence_measure clampT
  rw [specClamp_eq_clampVal]
  rfl

/-- C2 witness: concrete valid distributions on which the theorem applies. -/
theorem C2_KL_div_matches_spec_witness :
    (KL_div ⟨[2], [1/2, 1/2]⟩ ⟨[2], [1/4, 3/4]⟩).map Prod.fst =
      .ok (spec_divergence_measure ⟨[2], [1/2, 1/2]⟩ ⟨[2], [1/4, 3/4]⟩) :=
  C2_KL_div_matches_spec ⟨[2], [1/2, 1/2]⟩ ⟨[2], [1/4, 3/4]⟩ rfl
    (by norm_num [probOK, rowSums, Tensor.rows, Tensor.numRows, Tensor.lastDim,
      List.getLastD, chunkList])
    (by norm_num [probOK, rowSums, Tensor.rows, Tensor.numRows, Tensor.lastDim,
      List.getLastD, chunkList])

/-- C5: `KL_div` fails with a contract-violation error exactly when the
shapes of `P` and `Q` differ or some last-axis sum of `P` or `Q` deviates
from `1` by at least `1e-6`; under the complementary precondition no error
is raised. -/
theorem C5_KL_div_error_iff (p q : Tensor) :
    (∃ e, KL_div p q = .error e) ↔
      (p.shape ≠ q.shape ∨ (∃ s ∈ rowSums p, 1e-6 ≤ |s - 1|) ∨
        ∃ s ∈ rowSums q, 1e-6 ≤ |s - 1|) := by
  rw [← not_probOK_iff p, ← not_probOK_iff q]
  unfold KL_div
  split_ifs with h1 h2 h3
  · simp [h1, h2, h3]
  · simp [h1, h2, h3]
  · simp [h1, h2]
  · simp [h1]

/-- C5 witness: a concrete shape mismatch raises an error, and on a concrete
valid input no error is raised. -/
theorem C5_KL_div_error_iff_witness :
    (∃ e, KL_div ⟨[1], [1]⟩ ⟨[2], [1/2, 1/2]⟩ = .error e) ∧
      ¬ ∃ e, KL_div ⟨[2], [1/2, 1/2]⟩ ⟨[2], [1/2, 1/2]⟩ = .error e := by
  constructor
  · exact (C5_KL_div_error_iff _ _).mpr (Or.inl (by simp))
  · intro h
    rcases (C5_KL_div_error_iff _ _).mp h with h' | h' | h' <;>
      revert h' <;>
      norm_num [rowSums, Tensor.rows, Tensor.numRows, Tensor.lastDim, chunkList]

/-- C8: inside `KL_div`, every element of `Q` below `1e-7` is raised to
exactly `1e-7` before the logarithm is taken, elements at or above the floor
keep their values, and the returned scalar is computed from the pointwise
clamp of `Q` (no renormalization) against the unmodified `P`. -/
theorem C8_KL_div_clamp (p q : Tensor) (hs : p.shape = q.shape)
    (hp : probOK p) (hq : probOK q) :
    KL_div p q = .ok (meanR ((chunkList p.numRows p.lastDim
        (List.zipWith (fun (a b : ℚ) => (a : ℝ) * (Real.log a - Real.log (clampVal b)))
          p.data q.data)).map List.sum),
      ⟨q.shape, q.data.map clampVal⟩) ∧
    (∀ x : ℚ, x < 1e-7 → clampVal x = 1e-7) ∧
    (∀ x : ℚ, 1e-7 ≤ x → clampVal x = x) := by
  refine ⟨?_, fun x hx => clampVal_of_le hx.le, fun x hx => clampVal_of_ge hx⟩
  rw [KL_div_ok hs hp hq]
  unfold KL_div_core clampT
  rw [List.zipWith_map_right]
  rfl

/-- C8 witness: concrete input with an element of `Q` below the floor. -/
theorem C8_KL_div_clamp_witness :
    KL_div ⟨[2], [1/2, 1/2]⟩ ⟨[2], [1e-8, 1 - 1e-8]⟩ =
      .ok (meanR ((chunkList (Tensor.numRows ⟨[2], [1/2, 1/2]⟩)
          (Tensor.lastDim ⟨[2], [1/2, 1/2]⟩)
          (List.zipWith (fun (a b : ℚ) => (a : ℝ) * (Real.log a - Real.log (clampVal b)))
            [1/2, 1/2] [1e-8, 1 - 1e-8])).map List.sum),
        ⟨[2], List.map clampVal [1e-8, 1 - 1e-8]⟩) :=
  (C8_KL_div_clamp ⟨[2], [1/2, 1/2]⟩ ⟨[2], [1e-8, 1 - 1e-8]⟩ rfl
    (by norm_num [probOK, rowSums, Tensor.rows, Tensor.numRows, Tensor.lastDim,
      List.getLastD, chunkList])
    (by norm_num [probOK, rowSums, Tensor.rows, Tensor.numRows, Tensor.lastDim,
      List.getLastD, chunkList])).1

/-- C10: `KL_div` mutates its second argument in place — after a call every
element of the caller's `Q` tensor that was at or below `1e-7` has been
overwritten with `1e-7` and the other elements are unchanged — while
`calculate_kl_div_reward` leaves the per-layer weight tensors it receives
unchanged (the head slices are copied into fresh `p_mat`/`q_mat` tensors by
concatenation, and only the local `q_mat` is handed to `KL_div`). -/
theorem C10_mutation_and_frame :
    (∀ p q : Tensor, ∀ r : ℝ, ∀ q' : Tensor, KL_div p q = .ok (r, q') →
        q'.shape = q.shape ∧ q'.data.length = q.data.length ∧
        (∀ i, i < q.data.length → q.data.getD i 0 ≤ 1e-7 → q'.data.getD i 0 = 1e-7) ∧
        (∀ i, i < q.data.length → ¬ q.data.getD i 0 ≤ 1e-7 →
          q'.data.getD i 0 = q.data.getD i 0)) ∧
    (∀ weights : List Tensor, ∀ r : ℝ, ∀ ws' : List Tensor,
        calculate_kl_div_reward_st weights = .ok (r, ws') → ws' = weights) := by
  constructor
  · intro p q r q' h
    unfold KL_div at h
    split_ifs at h
    rw [Except.ok.injEq, Prod.mk.injEq] at h
    obtain ⟨-, hq'⟩ := h
    subst hq'
    refine ⟨rfl, by simp [clampT], ?_, ?_⟩
    · intro i hi hle
      show (q.data.map clampVal).getD i 0 = 1e-7
      rw [getD_map_clampVal _ _ hi, clampVal_of_le hle]
    · intro i hi hgt
      show (q.data.map clampVal).getD i 0 = q.data.getD i 0
      rw [getD_map_clampVal _ _ hi, clampVal_of_ge (not_le.mp hgt).le]
  · intro weights r ws' h
    unfold calculate_kl_div_reward_st at h
    cases hc : collectScores weights <;> rw [hc] at h
    · exact absurd h (by simp)
    · rw [Except.ok.injEq, Prod.mk.injEq] at h
      exact h.2.symm

/-! ### Concrete evaluations used by witnesses -/

lemma buildPQ_W0 :
    buildPQ W0 = (⟨[1, 1, 1, 2], [1/2, 1/2]⟩, ⟨[1, 1, 1, 2], [1/2, 1/2]⟩) := by
  rfl

lemma probOK_P0 : probOK ⟨[1, 1, 1, 2], [1/2, 1/2]⟩ := by
  norm_num [probOK, rowSums, Tensor.rows, Tensor.numRows, Tensor.lastDim,
    List.getLastD, chunkList]

lemma layerScore_W0 : layerScore W0 = .ok 0 := by
  unfold layerScore
  rw [buildPQ_W0, KL_div_ok rfl probOK_P0 probOK_P0]
  show Except.ok (KL_div_core ⟨[1, 1, 1, 2], [1/2, 1/2]⟩ ⟨[1, 1, 1, 2], [1/2, 1/2]⟩) =
    Except.ok 0
  rw [Except.ok.injEq]
  norm_num [KL_div_core, Tensor.numRows, Tensor.lastDim, List.getLastD, clampT,
    clampVal, chunkList, klContrib, meanR]

lemma collectScores_W0 : collectScores [W0] = .ok [0] := by
  unfold collectScores
  rw [layerScore_W0]
  rfl

lemma compute_loss_eval_W0 (b : Bool) (eps : ℝ) :
    compute_loss ⟨b, eps, 5⟩ [[-1]] [0] [W0] = .ok (1, 0) := by
  unfold compute_loss calculate_kl_div_reward
  rw [collectScores_W0]
  show Except.ok (nll_loss [[-1]] [0] 5 - meanR [0] * eps, meanR [0]) = _
  rw [Except.ok.injEq, Prod.mk.injEq]
  norm_num [meanR, nll_loss, List.getD]

lemma forward_eval_W0 :
    forward ⟨true, 0, 5⟩ [[-1]] [[0]] 7 [W0] = .ok (1, 1, ⟨1, 7, 1, 1, 0⟩) := by
  unfold forward
  rw [show ([[0]] : List (List ℕ)).flatten = [0] from rfl, compute_loss_eval_W0]
  rfl

/-- C10 witness: concrete instances of both parts — the element `0` of the
concrete `Q` is at the position `0` and is overwritten with `1e-7`, and a
concrete weight list passes through `calculate_kl_div_reward_st` unchanged. -/
theorem C10_mutation_and_frame_witness :
    (clampT ⟨[2], [0, 1]⟩).data.getD 0 0 = 1e-7 ∧ ([] : List Tensor) = [] := by
  constructor
  · exact (C10_mutation_and_frame.1 ⟨[2], [1/2, 1/2]⟩ ⟨[2], [0, 1]⟩
      (KL_div_core ⟨[2], [1/2, 1/2]⟩ ⟨[2], [0, 1]⟩) (clampT ⟨[2], [0, 1]⟩)
      (KL_div_ok rfl
        (by norm_num [probOK, rowSums, Tensor.rows, Tensor.numRows, Tensor.lastDim,
          List.getLastD, chunkList])
        (by norm_num [probOK, rowSums, Tensor.rows, Tensor.numRows, Tensor.lastDim,
          List.getLastD, chunkList]))).2.2.1 0 (by norm_num) (by norm_num [List.getD])
  · exact C10_mutation_and_frame.2 [] (meanR []) []
      (by unfold calculate_kl_div_reward_st collectScores; rfl)

/-- C1: for every model output and sample on which the reward computation
succeeds, the final loss returned by `compute_loss` equals the NLL loss minus
the configured coefficient λ (`self.epsilon`) times the divergence reward,
where the reward is the mean over layers of the per-layer pairwise-KL scalars
produced by `calculate_kl_div_reward`. -/
theorem C1_compute_loss_formula (self : Criterion) (lprobs : List (List ℝ))
    (target : List ℕ) (weights : List Tensor) (scores : List ℝ)
    (h : collectScores weights = .ok scores) :
    compute_loss self lprobs target weights =
      .ok (nll_loss lprobs target self.padding_idx - self.epsilon * meanR scores,
        meanR scores) ∧
    calculate_kl_div_reward weights = .ok (meanR scores) := by
  have hc : calculate_kl_div_reward weights = .ok (meanR scores) := by
    unfold calculate_kl_div_reward
    rw [h]
  refine ⟨?_, hc⟩
  unfold compute_loss
  rw [hc, Except.ok.injEq, Prod.mk.injEq]
  exact ⟨by ring, rfl⟩

/-- C1 witness: a concrete criterion, sample and weight collection. -/
theorem C1_compute_loss_formula_witness :
    compute_loss ⟨false, 2, 5⟩ [[-1]] [0] [W0] =
      .ok (nll_loss [[-1]] [0] 5 - 2 * meanR [0], meanR [0]) ∧
    calculate_kl_div_reward [W0] = .ok (meanR [0]) :=
  C1_compute_loss_formula ⟨false, 2, 5⟩ [[-1]] [0] [W0] [0] collectScores_W0

/-- C4: when the regularization coefficient λ is `0`, the final loss returned
by `compute_loss` equals the plain NLL loss, for every content of the
attention-weight collection. -/
theorem C4_lambda_zero_inert (self : Criterion) (h0 : self.epsilon = 0)
    (lprobs : List (List ℝ)) (target : List ℕ) (weights : List Tensor) (l kl : ℝ)
    (h : compute_loss self lprobs target weights = .ok (l, kl)) :
    l = nll_loss lprobs target self.padding_idx := by
  unfold compute_loss at h
  cases hc : calculate_kl_div_reward weights <;> rw [hc] at h
  · exact Except.noConfusion h
  · rw [Except.ok.injEq, Prod.mk.injEq] at h
    rw [← h.1, h0]
    ring

/-- C4 witness: a concrete zero-coefficient criterion and weight collection. -/
theorem C4_lambda_zero_inert_witness : (1 : ℝ) = nll_loss [[-1]] [0] 5 :=
  C4_lambda_zero_inert ⟨false, 0, 5⟩ rfl [[-1]] [0] [W0] 1 0 (compute_loss_eval_W0 false 0)

/-- C9: for every forward evaluation that returns, the sample size equals the
number of target sentences when the sentence-average flag is configured and
otherwise the sample's token count, and the returned logging record carries
exactly the keys `loss`, `ntokens`, `nsentences`, `sample_size`, `kl_reg`
(the fields of `LoggingOutput`) with the computed loss, token count, sentence
count, sample size and divergence reward as values. -/
theorem C9_forward_logging (self : Criterion) (lprobs : List (List ℝ))
    (target : List (List ℕ)) (ntokens : ℕ) (weights : List Tensor)
    (l : ℝ) (n : ℕ) (lo : LoggingOutput)
    (h : forward self lprobs target ntokens weights = .ok (l, n, lo)) :
    n = (if self.sentence_avg then target.length else ntokens) ∧
    lo.loss = l ∧ lo.ntokens = ntokens ∧ lo.nsentences = target.length ∧
    lo.sample_size = n ∧
    compute_loss self lprobs target.flatten weights = .ok (l, lo.kl_reg) := by
  unfold forward at h
  cases hc : compute_loss self lprobs target.flatten weights <;> rw [hc] at h
  · exact Except.noConfusion h
  · rw [Except.ok.injEq, Prod.mk.injEq, Prod.mk.injEq] at h
    obtain ⟨h1, h2, h3⟩ := h
    subst h1
    subst h2
    subst h3
    exact ⟨rfl, rfl, rfl, rfl, rfl, rfl⟩

/-! ### Enumeration of head pairs and the stacking of slices (C3) -/

lemma sum_map_add_one (l : List ℕ) (f : ℕ → ℕ) :
    (l.map fun x => f x + 1).sum = (l.map f).sum + l.length := by
  induction l with
  | nil => rfl
  | cons x xs ih =>
    simp only [List.map_cons, List.sum_cons, List.length_cons, ih]
    omega

lemma headPairs_length (H : ℕ) : (headPairs H).length = H.choose 2 := by
  unfold headPairs
  rw [List.length_flatMap]
  simp only [Function.comp_def, List.length_map, List.length_range']
  induction H with
  | zero => rfl
  | succ n ih =>
    rw [List.range_succ, List.map_append, List.sum_append]
    have hstep : (List.range n).map (fun i => n + 1 - (i + 1)) =
        (List.range n).map fun i => (n - (i + 1)) + 1 := by
      apply List.map_congr_left
      intro a ha
      rw [List.mem_range] at ha
      omega
    rw [hstep, sum_map_add_one, ih]
    simp only [List.map_cons, List.map_nil, List.sum_cons, List.sum_nil,
      List.length_range, Nat.sub_self]
    rw [Nat.choose_succ_succ n 1, Nat.choose_one_right]
    have hcc : Nat.succ 1 = 2 := rfl
    rw [hcc]
    omega

lemma mem_headPairs (H : ℕ) (ij : ℕ × ℕ) :
    ij ∈ headPairs H ↔ ij.1 < ij.2 ∧ ij.2 < H := by
  unfold headPairs
  constructor
  · intro h
    rw [List.mem_flatMap] at h
    obtain ⟨i, hi, hmem⟩ := h
    rw [List.mem_map] at hmem
    obtain ⟨j, hj, rfl⟩ := hmem
    rw [List.mem_range] at hi
    rw [List.mem_range'_1] at hj
    exact ⟨by omega, by omega⟩
  · intro h
    rw [List.mem_flatMap]
    refine ⟨ij.1, by rw [List.mem_range]; omega, ?_⟩
    rw [List.mem_map]
    exact ⟨ij.2, by rw [List.mem_range'_1]; omega, rfl⟩

lemma headPairs_pairwise (H : ℕ) : (headPairs H).Pairwise pairLt := by
  unfold headPairs
  have key : ∀ l : List ℕ, l.Pairwise (· < ·) →
      (l.flatMap fun i =>
        (List.range' (i + 1) (H - (i + 1))).map fun j => (i, j)).Pairwise pairLt := by
    intro l
    induction l with
    | nil => intro _; exact List.Pairwise.nil
    | cons x xs ih =>
      intro hp
      obtain ⟨hx, hxs⟩ := List.pairwise_cons.mp hp
      rw [List.flatMap_cons, List.pairwise_append]
      refine ⟨?_, ih hxs, ?_⟩
      · rw [List.pairwise_map]
        exact (List.pairwise_lt_range' _ _).imp fun h => Or.inr ⟨rfl, h⟩
      · intro a ha b hb
        rw [List.mem_map] at ha
        obtain ⟨j, -, rfl⟩ := ha
        rw [List.mem_flatMap] at hb
        obtain ⟨i', hi', hb⟩ := hb
        rw [List.mem_map] at hb
        obtain ⟨j', -, rfl⟩ := hb
        exact Or.inl (hx i' hi')
  exact key _ (List.pairwise_lt_range H)

lemma headPairs_nodup (H : ℕ) : (headPairs H).Nodup :=
  (headPairs_pairwise H).imp fun hab heq => by
    subst heq
    rcases hab with h | ⟨-, h⟩ <;> exact lt_irrefl _ h

lemma foldl_pqStep_split (w : Tensor) (L : List (ℕ × ℕ)) (a b : Tensor) :
    L.foldl (pqStep w) (a, b) =
      (L.foldl (fun t ij => cat0 t (unsqueeze0 (headSlice w ij.1))) a,
       L.foldl (fun t ij => cat0 t (unsqueeze0 (headSlice w ij.2))) b) := by
  induction L generalizing a b with
  | nil => rfl
  | cons x xs ih =>
    rw [List.foldl_cons, List.foldl_cons, List.foldl_cons]
    exact ih _ _

lemma cat0_of_ne (a b : Tensor) (ha : a.shape ≠ [0]) (hb : b.shape ≠ [0]) :
    cat0 a b = ⟨(a.shape.headD 0 + b.shape.headD 0) :: a.shape.tail, a.data ++ b.data⟩ := by
  unfold cat0
  rw [if_neg ha, if_neg hb]

lemma foldl_cat0 (w : Tensor) (f : ℕ × ℕ → ℕ) :
    ∀ (L : List (ℕ × ℕ)) (t : Tensor) (n : ℕ) (rest : List ℕ),
      t.shape = (n + 1) :: rest →
      (L.foldl (fun t ij => cat0 t (unsqueeze0 (headSlice w (f ij)))) t).data =
          t.data ++ L.flatMap (fun ij => (headSlice w (f ij)).data) ∧
        (L.foldl (fun t ij => cat0 t (unsqueeze0 (headSlice w (f ij)))) t).shape =
          (n + 1 + L.length) :: rest := by
  intro L
  induction L with
  | nil =>
    intro t n rest ht
    simp [ht]
  | cons x xs ih =>
    intro t n rest ht
    rw [List.foldl_cons]
    have hcat : cat0 t (unsqueeze0 (headSlice w (f x))) =
        ⟨(n + 2) :: rest, t.data ++ (headSlice w (f x)).data⟩ := by
      rw [cat0_of_ne t _ (by rw [ht]; simp) (by simp [unsqueeze0])]
      rw [ht]
      rfl
    rw [hcat]
    obtain ⟨hdata, hshape⟩ := ih ⟨(n + 2) :: rest, t.data ++ (headSlice w (f x)).data⟩
      (n + 1) rest rfl
    refine ⟨?_, ?_⟩
    · rw [hdata, List.flatMap_cons, List.append_assoc]
    · rw [hshape, List.length_cons]
      ring_nf

lemma buildPQ_component (w : Tensor) (f : ℕ × ℕ → ℕ) (L : List (ℕ × ℕ)) :
    (L.foldl (fun t ij => cat0 t (unsqueeze0 (headSlice w (f ij)))) emptyT).data =
        L.flatMap (fun ij => (headSlice w (f ij)).data) ∧
      (L ≠ [] →
        (L.foldl (fun t ij => cat0 t (unsqueeze0 (headSlice w (f ij)))) emptyT).shape =
          L.length :: w.shape.tail) := by
  cases L with
  | nil => exact ⟨rfl, fun h => absurd rfl h⟩
  | cons x xs =>
    rw [List.foldl_cons]
    have hfirst : cat0 emptyT (unsqueeze0 (headSlice w (f x))) =
        ⟨1 :: w.shape.tail, (headSlice w (f x)).data⟩ := by
      unfold cat0 emptyT
      rw [if_pos rfl]
      rfl
    rw [hfirst]
    obtain ⟨hdata, hshape⟩ := foldl_cat0 w f xs ⟨1 :: w.shape.tail, (headSlice w (f x)).data⟩
      0 w.shape.tail rfl
    refine ⟨?_, fun _ => ?_⟩
    · rw [hdata, List.flatMap_cons]
    · rw [hshape, List.length_cons]
      congr 1
      omega

/-- C3: for every layer weight tensor with `H` heads, the nested loop of
`calculate_kl_div_reward` enumerates exactly `C(H,2)` head pairs `(i, j)`
with `0 ≤ i < j < H` — in ascending lexicographic order of head index, the
first index strictly less than the second, each unordered pair exactly
once — and the head-`i` slices are stacked into `p_mat` and the head-`j`
slices into `q_mat` preserving that pair order. -/
theorem C3_pair_enumeration (w : Tensor) (H : ℕ) (rest : List ℕ)
    (hw : w.shape = H :: rest) :
    (headPairs H).length = H.choose 2 ∧
    (∀ ij : ℕ × ℕ, ij ∈ headPairs H ↔ ij.1 < ij.2 ∧ ij.2 < H) ∧
    (headPairs H).Pairwise pairLt ∧
    (headPairs H).Nodup ∧
    (buildPQ w).1.data = (headPairs H).flatMap (fun ij => (headSlice w ij.1).data) ∧
    (buildPQ w).2.data = (headPairs H).flatMap (fun ij => (headSlice w ij.2).data) ∧
    (2 ≤ H →
      (buildPQ w).1.shape = H.choose 2 :: rest ∧
      (buildPQ w).2.shape = H.choose 2 :: rest) := by
  have hH : w.shape.headD 0 = H := by rw [hw]; rfl
  have htail : w.shape.tail = rest := by rw [hw]; rfl
  have hsplit := foldl_pqStep_split w (headPairs (w.shape.headD 0)) emptyT emptyT
  have hbp : (buildPQ w).1 =
      (headPairs (w.shape.headD 0)).foldl
        (fun t ij => cat0 t (unsqueeze0 (headSlice w ij.1))) emptyT := by
    unfold buildPQ
    rw [hsplit]
  have hbq : (buildPQ w).2 =
      (headPairs (w.shape.headD 0)).foldl
        (fun t ij => cat0 t (unsqueeze0 (headSlice w ij.2))) emptyT := by
    unfold buildPQ
    rw [hsplit]
  have hne : 2 ≤ H → headPairs H ≠ [] := by
    intro h2 hnil
    have := headPairs_length H
    rw [hnil] at this
    have hpos : 0 < H.choose 2 := Nat.choose_pos h2
    simp at this
    omega
  refine ⟨headPairs_length H, mem_headPairs H, headPairs_pairwise H,
    headPairs_nodup H, ?_, ?_, ?_⟩
  · rw [hbp, hH]
    exact (buildPQ_component w Prod.fst (headPairs H)).1
  · rw [hbq, hH]
    exact (buildPQ_component w Prod.snd (headPairs H)).1
  · intro h2
    constructor
    · rw [hbp, hH, (buildPQ_component w Prod.fst (headPairs H)).2 (hne h2), htail,
        headPairs_length H]
    · rw [hbq, hH, (buildPQ_component w Prod.snd (headPairs H)).2 (hne h2), htail,
        headPairs_length H]

/-- C3 witness: the concrete two-head layer tensor `W0`. -/
theorem C3_pair_enumeration_witness :
    (headPairs 2).length = Nat.choose 2 2 ∧
    (buildPQ W0).1.data = (headPairs 2).flatMap (fun ij => (headSlice W0 ij.1).data) ∧
    (buildPQ W0).2.shape = Nat.choose 2 2 :: [1, 1, 2] :=
  ⟨(C3_pair_enumeration W0 2 [1, 1, 2] rfl).1,
   (C3_pair_enumeration W0 2 [1, 1, 2] rfl).2.2.2.2.1,
   ((C3_pair_enumeration W0 2 [1, 1, 2] rfl).2.2.2.2.2.2 (by norm_num)).2⟩

/-! ### Pointwise and per-row facts about the divergence value (C6, C7) -/

lemma KL_div_core_pair (a b c d : ℚ) :
    KL_div_core ⟨[2], [a, b]⟩ ⟨[2], [c, d]⟩ =
      klContrib a (clampVal c) + klContrib b (clampVal d) := by
  norm_num [KL_div_core, Tensor.numRows, Tensor.lastDim, List.getLastD, clampT,
    chunkList, meanR]

lemma chunkList_subset {α : Type} :
    ∀ (r k : ℕ) (l : List α), ∀ row ∈ chunkList r k l, ∀ y ∈ row, y ∈ l := by
  intro r
  induction r with
  | zero => intro k l row h; exact absurd h (by simp [chunkList])
  | succ n ih =>
    intro k l row h y hy
    rcases List.mem_cons.mp h with rfl | h'
    · exact List.take_subset _ _ hy
    · exact List.drop_subset _ _ (ih k (l.drop k) row h' y hy)

lemma chunkList_zipWith {α β γ : Type} (f : α → β → γ) :
    ∀ (r k : ℕ) (a : List α) (b : List β),
      chunkList r k (List.zipWith f a b) =
        List.zipWith (List.zipWith f) (chunkList r k a) (chunkList r k b) := by
  intro r
  induction r with
  | zero => intros; rfl
  | succ n ih =>
    intro k a b
    show (List.zipWith f a b).take k :: chunkList n k ((List.zipWith f a b).drop k) = _
    rw [List.take_zipWith, List.drop_zipWith, ih]
    rfl

lemma chunkList_map {α β : Type} (g : α → β) :
    ∀ (r k : ℕ) (l : List α),
      chunkList r k (l.map g) = (chunkList r k l).map (List.map g) := by
  intro r
  induction r with
  | zero => intros; rfl
  | succ n ih =>
    intro k l
    show (l.map g).take k :: chunkList n k ((l.map g).drop k) = _
    rw [(List.map_take g l k).symm, (List.map_drop g l k).symm, ih]
    rfl

lemma chunkList_forall₂_length {α β : Type} :
    ∀ (r k : ℕ) (a : List α) (b : List β), a.length = b.length →
      List.Forall₂ (fun x y => x.length = y.length) (chunkList r k a) (chunkList r k b) := by
  intro r
  induction r with
  | zero => intros; exact List.Forall₂.nil
  | succ n ih =>
    intro k a b h
    exact List.Forall₂.cons (by rw [List.length_take, List.length_take, h])
      (ih k _ _ (by rw [List.length_drop, List.length_drop, h]))

lemma klContrib_ge (p q : ℚ) (hp : 0 ≤ p) (hq : 0 < q) :
    (p : ℝ) - (q : ℝ) ≤ klContrib p q := by
  unfold klContrib
  have hq' : (0 : ℝ) < q := by exact_mod_cast hq
  rcases eq_or_lt_of_le hp with heq | hpos
  · rw [← heq]
    push_cast
    simp
    linarith
  · have hp' : (0 : ℝ) < p := by exact_mod_cast hpos
    have hlog := Real.log_le_sub_one_of_pos (div_pos hq' hp')
    rw [Real.log_div (ne_of_gt hq') (ne_of_gt hp')] at hlog
    have key : (p : ℝ) * ((q : ℝ) / (p : ℝ)) = q := by field_simp
    have h2 : (p : ℝ) * (Real.log q - Real.log p) ≤ (p : ℝ) * ((q : ℝ) / (p : ℝ) - 1) :=
      mul_le_mul_of_nonneg_left hlog hp'.le
    have h3 : (p : ℝ) * ((q : ℝ) / (p : ℝ) - 1) = (q : ℝ) - p := by
      rw [mul_sub, key, mul_one]
    have h4 : (p : ℝ) * (Real.log p - Real.log q) =
        -((p : ℝ) * (Real.log q - Real.log p)) := by ring
    rw [h4]
    linarith

lemma sum_zip_ge :
    ∀ (ps qs : List ℚ), ps.length = qs.length →
      (∀ x ∈ ps, 0 ≤ x) → (∀ x ∈ qs, 0 < x) →
      ((ps.sum : ℝ) - (qs.sum : ℝ)) ≤ (List.zipWith klContrib ps qs).sum := by
  intro ps
  induction ps with
  | nil =>
    intro qs hlen _ _
    have hqs : qs = [] := List.eq_nil_of_length_eq_zero hlen.symm
    subst hqs
    simp
  | cons x xs ih =>
    intro qs hlen hp hq
    cases qs with
    | nil => exact absurd hlen (by simp)
    | cons y ys =>
      rw [List.zipWith_cons_cons, List.sum_cons, List.sum_cons, List.sum_cons]
      have h1 := klContrib_ge x y (hp x (List.mem_cons_self x xs))
        (hq y (List.mem_cons_self y ys))
      have h2 := ih ys (by simpa using hlen)
        (fun a ha => hp a (List.mem_cons_of_mem x ha))
        (fun a ha => hq a (List.mem_cons_of_mem y ha))
      push_cast
      push_cast at h1 h2
      linarith

lemma row_klContrib_sum_nonneg (pr qr : List ℚ) (hlen : pr.length = qr.length)
    (hps : pr.sum = 1) (hpnn : ∀ x ∈ pr, 0 ≤ x)
    (hqs : qr.sum = 1) (hqge : ∀ x ∈ qr, 1e-7 ≤ x) :
    0 ≤ (List.zipWith klContrib pr (qr.map clampVal)).sum := by
  have hclamp : qr.map clampVal = qr := by
    rw [show qr.map clampVal = qr.map id from
      List.map_congr_left fun x hx => clampVal_of_ge (hqge x hx), List.map_id]
  rw [hclamp]
  have key := sum_zip_ge pr qr hlen hpnn
    (fun x hx => lt_of_lt_of_le (by norm_num) (hqge x hx))
  rw [hps, hqs] at key
  push_cast at key
  linarith

lemma rows_scores_nonneg :
    ∀ (ps qs : List (List ℚ)),
      List.Forall₂ (fun x y => x.length = y.length) ps qs →
      (∀ row ∈ ps, row.sum = 1 ∧ ∀ x ∈ row, 0 ≤ x) →
      (∀ row ∈ qs, row.sum = 1 ∧ ∀ x ∈ row, 1e-7 ≤ x) →
      ∀ s ∈ List.zipWith
        (fun pr qr => (List.zipWith klContrib pr (qr.map clampVal)).sum) ps qs,
        0 ≤ s := by
  intro ps qs hf
  induction hf with
  | nil => intro _ _ s hs; exact absurd hs (by simp)
  | @cons a b l₁ l₂ hxy _ ih =>
    intro hp hq s hs
    rw [List.zipWith_cons_cons] at hs
    rcases List.mem_cons.mp hs with rfl | hs'
    · exact row_klContrib_sum_nonneg a b hxy
        (hp a (List.mem_cons_self a l₁)).1 (hp a (List.mem_cons_self a l₁)).2
        (hq b (List.mem_cons_self b l₂)).1 (hq b (List.mem_cons_self b l₂)).2
    · exact ih (fun row hr => hp row (List.mem_cons_of_mem a hr))
        (fun row hr => hq row (List.mem_cons_of_mem b hr)) s hs'

/-- C6 counterexample: with `P = Q = [1 - 1e-8, 1e-8]` (an exactly valid
probability distribution equal elementwise before clamping), `KL_div`
returns the strictly negative scalar `1e-8 · (log 1e-8 − log 1e-7)`,
not `0`: the clamping raises the second element of `Q` to `1e-7` while `P`
keeps `1e-8`. -/
theorem C6_counterexample :
    (KL_div ⟨[2], [1 - 1e-8, 1e-8]⟩ ⟨[2], [1 - 1e-8, 1e-8]⟩).map Prod.fst =
      .ok ((1e-8 : ℝ) * (Real.log (1e-8 : ℝ) - Real.log (1e-7 : ℝ))) ∧
    (1e-8 : ℝ) * (Real.log (1e-8 : ℝ) - Real.log (1e-7 : ℝ)) < 0 ∧
    (KL_div ⟨[2], [1 - 1e-8, 1e-8]⟩ ⟨[2], [1 - 1e-8, 1e-8]⟩).map Prod.fst ≠ .ok 0 := by
  have hprob : probOK ⟨[2], [1 - 1e-8, 1e-8]⟩ := by
    norm_num [probOK, rowSums, Tensor.rows, Tensor.numRows, Tensor.lastDim,
      List.getLastD, chunkList]
  have hneg : (1e-8 : ℝ) * (Real.log (1e-8 : ℝ) - Real.log (1e-7 : ℝ)) < 0 := by
    have hlt : Real.log (1e-8 : ℝ) < Real.log (1e-7 : ℝ) :=
      Real.log_lt_log (by norm_num) (by norm_num)
    have : Real.log (1e-8 : ℝ) - Real.log (1e-7 : ℝ) < 0 := by linarith
    exact mul_neg_of_pos_of_neg (by norm_num) this
  have hval : (KL_div ⟨[2], [1 - 1e-8, 1e-8]⟩ ⟨[2], [1 - 1e-8, 1e-8]⟩).map Prod.fst =
      .ok ((1e-8 : ℝ) * (Real.log (1e-8 : ℝ) - Real.log (1e-7 : ℝ))) := by
    rw [KL_div_ok rfl hprob hprob]
    show Except.ok (KL_div_core ⟨[2], [1 - 1e-8, 1e-8]⟩ ⟨[2], [1 - 1e-8, 1e-8]⟩) = _
    rw [Except.ok.injEq, KL_div_core_pair,
      clampVal_of_ge (by norm_num), clampVal_of_le (by norm_num)]
    unfold klContrib
    rw [sub_self, mul_zero, zero_add]
    norm_num
  refine ⟨hval, hneg, ?_⟩
  rw [hval]
  intro hcontra
  rw [Except.ok.injEq] at hcontra
  exact absurd hcontra (ne_of_lt hneg)

/-- C6 (amended): for every pair of tensors `P`, `Q` of identical shape with
valid last-axis distributions such that `P` equals `Q` elementwise before
clamping, `KL_div(P, Q)` returns `0` — provided additionally that every
element of `Q` is either `0` or at least the clamping floor `1e-7` (the
counterexample shows the original claim fails when an element lies strictly
between `0` and `1e-7`). -/
theorem C6_amended_self_divergence_zero (p : Tensor) (hp : probOK p)
    (helem : ∀ x ∈ p.data, x = 0 ∨ 1e-7 ≤ x) :
    (KL_div p p).map Prod.fst = .ok 0 := by
  rw [KL_div_ok rfl hp hp]
  show Except.ok (KL_div_core p p) = _
  rw [Except.ok.injEq]
  unfold KL_div_core
  have hzero : ∀ c ∈ List.zipWith klContrib p.data (clampT p).data, c = 0 := by
    show ∀ c ∈ List.zipWith klContrib p.data (p.data.map clampVal), c = 0
    rw [List.zipWith_map_right, List.zipWith_same]
    intro c hc
    rw [List.mem_map] at hc
    obtain ⟨x, hx, rfl⟩ := hc
    rcases helem x hx with h0 | hge
    · subst h0
      unfold klContrib
      push_cast
      exact zero_mul _
    · rw [clampVal_of_ge hge]
      unfold klContrib
      rw [sub_self, mul_zero]
  unfold meanR
  rw [List.sum_eq_zero, zero_div]
  intro s hs
  rw [List.mem_map] at hs
  obtain ⟨row, hrow, rfl⟩ := hs
  refine List.sum_eq_zero fun y hy => ?_
  exact hzero y (chunkList_subset _ _ _ row hrow y hy)

/-- C6 witness for the amended claim: a concrete uniform distribution. -/
theorem C6_amended_self_divergence_zero_witness :
    (KL_div ⟨[2], [1/2, 1/2]⟩ ⟨[2], [1/2, 1/2]⟩).map Prod.fst = .ok 0 :=
  C6_amended_self_divergence_zero ⟨[2], [1/2, 1/2]⟩
    (by norm_num [probOK, rowSums, Tensor.rows, Tensor.numRows, Tensor.lastDim,
      List.getLastD, chunkList])
    (by
      intro x hx
      simp only [List.mem_cons, List.not_mem_nil, or_false] at hx
      rcases hx with rfl | rfl <;> exact Or.inr (by norm_num))

/-- C7 counterexample: with `P = [1 - 1e-7, 1e-7]` and `Q = [1, 0]` — both
exactly valid probability distributions — `KL_div` returns
`(1 - 1e-7) · log(1 - 1e-7) < 0`: clamping the zero element of `Q` up to
`1e-7` makes the clamped `Q` sum to more than `1`, so nonnegativity of the
KL divergence fails. -/
theorem C7_counterexample :
    (KL_div ⟨[2], [1 - 1e-7, 1e-7]⟩ ⟨[2], [1, 0]⟩).map Prod.fst =
      .ok (((1 : ℝ) - 1e-7) * Real.log ((1 : ℝ) - 1e-7)) ∧
    ((1 : ℝ) - 1e-7) * Real.log ((1 : ℝ) - 1e-7) < 0 := by
  constructor
  · rw [@KL_div_ok ⟨[2], [1 - 1e-7, 1e-7]⟩ ⟨[2], [1, 0]⟩ rfl
      (by norm_num [probOK, rowSums, Tensor.rows, Tensor.numRows, Tensor.lastDim,
        List.getLastD, chunkList])
      (by norm_num [probOK, rowSums, Tensor.rows, Tensor.numRows, Tensor.lastDim,
        List.getLastD, chunkList])]
    show Except.ok (KL_div_core ⟨[2], [1 - 1e-7, 1e-7]⟩ ⟨[2], [1, 0]⟩) = _
    rw [Except.ok.injEq, KL_div_core_pair,
      clampVal_of_ge (by norm_num), clampVal_of_le (by norm_num)]
    unfold klContrib
    rw [sub_self, mul_zero, add_zero]
    push_cast
    rw [Real.log_one, sub_zero]
  · have hlog : Real.log ((1 : ℝ) - 1e-7) < 0 :=
      Real.log_neg (by norm_num) (by norm_num)
    exact mul_neg_of_pos_of_neg (by norm_num) hlog

/-- C7 (amended): the scalar returned by `KL_div(P, Q)` is nonnegative
provided every last-axis slice of `P` sums exactly to `1` with nonnegative
entries, every last-axis slice of `Q` sums exactly to `1` with entries at
least the clamping floor `1e-7` (so the clamp is the identity on `Q`), and
`P` and `Q` have the same flattened length (the counterexample shows the
original tolerance-level claim fails once clamping inflates the mass
of `Q`). -/
theorem C7_amended_nonneg (p q : Tensor) (hlen : p.data.length = q.data.length)
    (hp : ∀ row ∈ p.rows, row.sum = 1 ∧ ∀ x ∈ row, 0 ≤ x)
    (hq : ∀ row ∈ q.rows, row.sum = 1 ∧ ∀ x ∈ row, 1e-7 ≤ x)
    (r : ℝ) (q' : Tensor) (h : KL_div p q = .ok (r, q')) : 0 ≤ r := by
  unfold KL_div at h
  split_ifs at h with h1 h2 h3
  rw [Except.ok.injEq, Prod.mk.injEq] at h
  obtain ⟨hr, -⟩ := h
  rw [← hr]
  unfold KL_div_core
  have hnr : p.numRows = q.numRows := by unfold Tensor.numRows; rw [h1]
  have hld : p.lastDim = q.lastDim := by unfold Tensor.lastDim; rw [h1]
  have hrows_q : chunkList p.numRows p.lastDim q.data = q.rows := by
    unfold Tensor.rows
    rw [hnr, hld]
  show 0 ≤ meanR ((chunkList p.numRows p.lastDim
    (List.zipWith klContrib p.data (q.data.map clampVal))).map List.sum)
  rw [chunkList_zipWith klContrib p.numRows p.lastDim p.data (q.data.map clampVal),
    chunkList_map clampVal p.numRows p.lastDim q.data, hrows_q,
    List.zipWith_map_right, List.map_zipWith]
  unfold meanR
  apply div_nonneg _ (Nat.cast_nonneg _)
  apply List.sum_nonneg
  exact rows_scores_nonneg p.rows q.rows
    (by rw [← hrows_q]; unfold Tensor.rows; exact chunkList_forall₂_length _ _ _ _ hlen)
    hp hq

/-- C7 witness for the amended claim: concrete exact distributions with all
entries above the floor. -/
theorem C7_amended_nonneg_witness :
    0 ≤ KL_div_core ⟨[2], [1/2, 1/2]⟩ ⟨[2], [1/4, 3/4]⟩ :=
  C7_amended_nonneg ⟨[2], [1/2, 1/2]⟩ ⟨[2], [1/4, 3/4]⟩ rfl
    (by norm_num [Tensor.rows, Tensor.numRows, Tensor.lastDim, List.getLastD, chunkList])
    (by norm_num [Tensor.rows, Tensor.numRows, Tensor.lastDim, List.getLastD, chunkList])
    (KL_div_core ⟨[2], [1/2, 1/2]⟩ ⟨[2], [1/4, 3/4]⟩)
    (clampT ⟨[2], [1/4, 3/4]⟩)
    (KL_div_ok rfl
      (by norm_num [probOK, rowSums, Tensor.rows, Tensor.numRows, Tensor.lastDim,
        List.getLastD, chunkList])
      (by norm_num [probOK, rowSums, Tensor.rows, Tensor.numRows, Tensor.lastDim,
        List.getLastD, chunkList]))

/-- C9 witness: a concrete sentence-averaged forward evaluation. -/
theorem C9_forward_logging_witness :
    (1 = if (true : Bool) then ([[0]] : List (List ℕ)).length else 7) ∧
    ((1 : ℝ) = 1) ∧ (7 = 7) ∧ (1 = ([[0]] : List (List ℕ)).length) ∧ (1 = 1) ∧
    compute_loss ⟨true, 0, 5⟩ [[-1]] ([[0]] : List (List ℕ)).flatten [W0] = .ok (1, 0) :=
  C9_forward_logging ⟨true, 0, 5⟩ [[-1]] [[0]] 7 [W0] 1 1 ⟨1, 7, 1, 1, 0⟩ forward_eval_W0

end KLHead
